import Mathlib

/-!
Verification development for the async-s3 repository.

Strings are embedded as `List Char` (`Str`).  Pure functions of
`src/async_s3/main.py` are translated directly.  The recursive crawler
(`s3_bucket_objects.py`) and the sibling-prefix grouper
(`group_by_prefix.py`) are not present under `src/`, so they are modelled
from the specification (sections 4.1 to 4.3, 5 and 6 of `spec.md`); each
such definition carries a doc comment starting with `Modelled from the
spec:`.
-/

abbrev Str := List Char

/-- Executable Boolean prefix test on character lists. -/
def isPre : Str → Str → Bool
  | [], _ => true
  | _ :: _, [] => false
  | a :: as, b :: bs => a == b && isPre as bs

theorem isPre_iff : ∀ (s t : Str), isPre s t = true ↔ s <+: t
  | [], t => by simp [isPre]
  | _ :: _, [] => by simp [isPre]
  | a :: as, b :: bs => by
    simp [isPre, List.cons_prefix_cons, isPre_iff as bs]

/-- Longest common prefix of two strings (character by character). -/
def lcp2 : Str → Str → Str
  | a :: as, b :: bs => if a = b then a :: lcp2 as bs else []
  | _, _ => []

theorem lcp2_prefix_left : ∀ (a b : Str), lcp2 a b <+: a
  | [], b => by simp [lcp2]
  | _ :: _, [] => by simp [lcp2]
  | a :: as, b :: bs => by
    by_cases h : a = b
    · simpa [lcp2, h, List.cons_prefix_cons] using lcp2_prefix_left as bs
    · simp [lcp2, h]

theorem lcp2_prefix_right : ∀ (a b : Str), lcp2 a b <+: b
  | [], b => by simp [lcp2]
  | _ :: _, [] => by simp [lcp2]
  | a :: as, b :: bs => by
    by_cases h : a = b
    · simpa [lcp2, h, List.cons_prefix_cons] using lcp2_prefix_right as bs
    · simp [lcp2, h]

theorem prefix_lcp2 : ∀ (p a b : Str), p <+: a → p <+: b → p <+: lcp2 a b
  | [], _, _, _, _ => List.nil_prefix
  | x :: p', a, b, ha, hb => by
    match a, b with
    | xa :: a', xb :: b' =>
      rw [List.cons_prefix_cons] at ha hb
      obtain ⟨rfl, ha'⟩ := ha
      obtain ⟨rfl, hb'⟩ := hb
      simpa [lcp2, List.cons_prefix_cons] using prefix_lcp2 p' a' b' ha' hb'

/-- Modelled from the spec: `group_by_prefix.py` is absent from `src/`;
the longest common prefix of a whole sequence, per section 4.2 of the
spec ("the longest string that is a prefix of every element; returns the
empty string for an empty input"). -/
def find_longest_common_prefix : List Str → Str
  | [] => []
  | x :: xs => xs.foldl lcp2 x

theorem foldl_lcp2_prefix_acc : ∀ (xs : List Str) (acc : Str), xs.foldl lcp2 acc <+: acc
  | [], acc => List.prefix_rfl
  | x :: xs, acc =>
    (foldl_lcp2_prefix_acc xs (lcp2 acc x)).trans (lcp2_prefix_left acc x)

theorem foldl_lcp2_prefix_mem :
    ∀ (xs : List Str) (acc : Str), ∀ x ∈ xs, xs.foldl lcp2 acc <+: x
  | _ :: xs, acc, x, h => by
    rcases List.mem_cons.mp h with rfl | hx
    · exact (foldl_lcp2_prefix_acc xs (lcp2 acc x)).trans (lcp2_prefix_right acc x)
    · exact foldl_lcp2_prefix_mem xs (lcp2 acc _) x hx

/-- Lexicographic Boolean order on character lists. -/
def strLe : Str → Str → Bool
  | [], _ => true
  | _ :: _, [] => false
  | a :: as, b :: bs => if a = b then strLe as bs else decide (a < b)

/-- Insert into a sorted list (insertion sort step). -/
def insertSorted (x : Str) : List Str → List Str
  | [] => [x]
  | y :: ys => if strLe x y then x :: y :: ys else y :: insertSorted x ys

/-- Lexicographic insertion sort. -/
def sortStrs : List Str → List Str
  | [] => []
  | x :: xs => insertSorted x (sortStrs xs)

theorem mem_insertSorted {x s : Str} :
    ∀ (l : List Str), s ∈ insertSorted x l ↔ s = x ∨ s ∈ l
  | [] => by simp [insertSorted]
  | y :: ys => by
    by_cases h : strLe x y
    · simp [insertSorted, h]
    · simp only [insertSorted, if_neg h, List.mem_cons, mem_insertSorted ys]
      tauto

theorem mem_sortStrs {s : Str} : ∀ (l : List Str), s ∈ sortStrs l ↔ s ∈ l
  | [] => Iff.rfl
  | x :: xs => by
    simp [sortStrs, mem_insertSorted, mem_sortStrs xs]

/-- Index of the first maximal score (auxiliary fold). -/
def argmaxAux : Nat → Nat → Nat → List Nat → Nat
  | best, _, _, [] => best
  | best, bv, i, v :: rest =>
    if bv < v then argmaxAux i v (i + 1) rest else argmaxAux best bv (i + 1) rest

/-- Index of the adjacent pair with the longest shared prefix
(earliest position wins ties). -/
def bestIdx (names : List Str) : Nat :=
  argmaxAux 0 0 0 ((names.zip names.tail).map (fun ab => (lcp2 ab.1 ab.2).length))

/-- Merge the adjacent pair at the given index into one group named by the
pair's longest common prefix. -/
def mergeAt : Nat → List Str → List Str
  | _, [] => []
  | _, [a] => [a]
  | 0, a :: b :: rest => lcp2 a b :: rest
  | i + 1, a :: b :: rest => a :: mergeAt i (b :: rest)

/-- Merge loop: while more groups than the cap remain, merge the chosen
adjacent pair; `fuel` bounds the number of merges. -/
def groupLoop : Nat → List Str → Nat → List Str
  | 0, names, _ => names
  | fuel + 1, names, cap =>
    if names.length ≤ cap then names
    else groupLoop fuel (mergeAt (bestIdx names) names) cap

/-- Modelled from the spec: `group_by_prefix.py` is absent from `src/`;
section 4.2 policy — sort the siblings lexicographically, then repeatedly
merge the two adjacent groups sharing the longest common prefix (earliest
pair on ties, also when every shared prefix is empty), the merged group
being named by that common prefix, until at most `cap` groups remain. -/
def group_by_prefix (siblings : List Str) (cap : Nat) : List Str :=
  let sorted := sortStrs siblings
  groupLoop sorted.length sorted cap

/-- Modelled from the spec: `s3_bucket_objects.py` is absent from `src/`;
the ListingClient's flat (non-delimited) listing of a prefix, continuation
tokens exhausted (section 6): every stored key that starts with the
prefix. -/
def flatList (tree : List Str) (p : Str) : List Str :=
  tree.filter (fun k => isPre p k)

/-- Modelled from the spec: the direct child items of a delimited listing
(section 6) — keys under the prefix with no delimiter occurrence after
the prefix. -/
def directItems (tree : List Str) (p : Str) (d : Char) : List Str :=
  tree.filter (fun k => isPre p k && (k.drop p.length).all (fun c => c ≠ d))

/-- The group-prefix a key contributes to a delimited listing: the prefix
extended by the key's next segment up to and including the delimiter. -/
def childPref (p : Str) (d : Char) (k : Str) : Str :=
  p ++ (k.drop p.length).takeWhile (fun c => c ≠ d) ++ [d]

/-- Modelled from the spec: the direct child group-prefixes of a delimited
listing (section 6), without repetitions. -/
def childPrefs (tree : List Str) (p : Str) (d : Char) : List Str :=
  (tree.filterMap (fun k =>
    if isPre p k && (k.drop p.length).any (fun c => c = d) then some (childPref p d k)
    else none)).dedup

/-- Is the depth budget spent for this task (`maxLevel` set and
`level >= maxLevel`, section 4.3 step 1)? -/
def atMaxLevel (ml : Option Nat) (level : Nat) : Bool :=
  match ml with | some L => decide (L ≤ level) | none => false

/-- Modelled from the spec: `s3_bucket_objects.py` is absent from `src/`;
the Crawler state machine of section 4.3, as the list of keys it emits.
Step 1: depth budget spent — flat listing.  Step 2: delimited listing,
direct items emitted.  Step 3: no child group-prefixes — done.  Step 4:
child count within `maxFolders` (or `maxFolders` unset) — recurse per
child at `level + 1`.  Step 5: too many children — fold them with the
grouper and flat-list each group.  `fuel` bounds the recursion depth; the
entry point supplies enough for every reachable prefix. -/
def crawl (tree : List Str) (d : Char) (ml mf : Option Nat) : Nat → Str → Nat → List Str
  | 0, _, _ => []
  | fuel + 1, p, level =>
    if atMaxLevel ml level then flatList tree p
    else
      let items := directItems tree p d
      let children := childPrefs tree p d
      if children = [] then items
      else
        match mf with
        | none => items ++ (children.map (fun c => crawl tree d ml none fuel c (level + 1))).flatten
        | some F =>
          if children.length ≤ F then
            items ++
              (children.map (fun c => crawl tree d ml (some F) fuel c (level + 1))).flatten
          else items ++ (( group_by_prefix children F).map (fun g => flatList tree g)).flatten

/-- Length of the longest key in the store. -/
def maxKeyLen (tree : List Str) : Nat := tree.foldr (fun k m => max k.length m) 0

/-- Modelled from the spec: the public entry point `iterate` (section 6),
started at the root prefix with level 0; emission order across concurrent
branches is unspecified, so the model fixes the scheduling order and
claims are read up to multisets. -/
def iterate (tree : List Str) (d : Char) (ml mf : Option Nat) (root : Str) : List Str :=
  crawl tree d ml mf (maxKeyLen tree + 1) root 0

/-- Gate state: permits still free, permits acquired but not inside a
list call, and outstanding ListingClient calls. -/
structure GateState where
  free : Nat
  held : Nat
  calling : Nat
deriving DecidableEq

/-- Modelled from the spec: the ConcurrencyGate discipline of sections
4.1, 4.3 and 5 — a task acquires a permit before its first ListingClient
call, calls only while holding one, and releases on every exit path,
including the scheduling-failure path (section 7). -/
inductive GateStep : GateState → GateState → Prop
  | acquire (f h c : Nat) : GateStep ⟨f + 1, h, c⟩ ⟨f, h + 1, c⟩
  | startCall (f h c : Nat) : GateStep ⟨f, h + 1, c⟩ ⟨f, h, c + 1⟩
  | finishCall (f h c : Nat) : GateStep ⟨f, h, c + 1⟩ ⟨f, h + 1, c⟩
  | release (f h c : Nat) : GateStep ⟨f, h + 1, c⟩ ⟨f + 1, h, c⟩
  | failedSpawnRelease (f h c : Nat) : GateStep ⟨f, h + 1, c⟩ ⟨f + 1, h, c⟩

/-- The gate as configured at crawl start: all permits free. -/
def initGate (parallelism : Nat) : GateState := ⟨parallelism, 0, 0⟩

/-- States a crawl with the given parallelism can reach. -/
inductive GateReachable (parallelism : Nat) : GateState → Prop
  | init : GateReachable parallelism (initGate parallelism)
  | step {s t : GateState} : GateReachable parallelism s → GateStep s t →
      GateReachable parallelism t

theorem gateStep_conserves {s t : GateState} (h : GateStep s t) :
    t.free + t.held + t.calling = s.free + s.held + s.calling := by
  cases h <;> simp <;> omega

theorem gateReachable_conserves {par : Nat} {s : GateState} (h : GateReachable par s) :
    s.free + s.held + s.calling = par := by
  induction h with
  | init => simp [initGate]
  | step _ hstep ih => rw [gateStep_conserves hstep, ih]

/-- The `s3://` protocol marker (`S3PROTO` in `main.py`). -/
def S3PROTO : Str := "s3://".data

/-- `split_s3_url` from `main.py`: strip the protocol, split at the first
slash into bucket and key (key empty when there is no slash). -/
def split_s3_url (s3_url : Str) : Str × Str :=
  let rest := s3_url.drop S3PROTO.length
  (rest.takeWhile (fun c => c ≠ '/'), (rest.dropWhile (fun c => c ≠ '/')).drop 1)

/-- The `click.BadParameter` message raised by `validate_delimiter`. -/
def delimiterErrorMsg : Str := "Delimiter must be exactly one character.".data

/-- `validate_delimiter` from `main.py`: reject unless the value is
exactly one character, otherwise return it unchanged. -/
def validate_delimiter (value : Str) : Except Str Str :=
  if value.length ≠ 1 then Except.error delimiterErrorMsg else Except.ok value

theorem argmaxAux_bound : ∀ (l : List Nat) (best bv i : Nat),
    argmaxAux best bv i l = best ∨
      (i ≤ argmaxAux best bv i l ∧ argmaxAux best bv i l < i + l.length)
  | [], best, bv, i => Or.inl rfl
  | v :: rest, best, bv, i => by
    by_cases h : bv < v
    · simp only [argmaxAux, if_pos h]
      rcases argmaxAux_bound rest i v (i + 1) with h' | ⟨h1, h2⟩
      · exact Or.inr ⟨by omega, by simp only [h', List.length_cons]; omega⟩
      · exact Or.inr ⟨by omega, by simp only [List.length_cons]; omega⟩
    · simp only [argmaxAux, if_neg h]
      rcases argmaxAux_bound rest best bv (i + 1) with h' | ⟨h1, h2⟩
      · exact Or.inl h'
      · exact Or.inr ⟨by omega, by simp only [List.length_cons]; omega⟩

theorem bestIdx_bound (names : List Str) (h : 2 ≤ names.length) :
    bestIdx names + 2 ≤ names.length := by
  unfold bestIdx
  rcases argmaxAux_bound ((names.zip names.tail).map (fun ab => (lcp2 ab.1 ab.2).length))
      0 0 0 with h' | ⟨_, h2⟩
  · omega
  · simp only [List.length_map, List.length_zip, List.length_tail] at h2
    omega

theorem mergeAt_length : ∀ (i : Nat) (names : List Str), i + 2 ≤ names.length →
    (mergeAt i names).length + 1 = names.length
  | 0, [], h => by simp at h
  | 0, [a], h => by simp at h
  | 0, a :: b :: rest, _ => by simp [mergeAt]
  | i + 1, [], h => by simp at h
  | i + 1, [a], h => by simp at h
  | i + 1, a :: b :: rest, h => by
    have := mergeAt_length i (b :: rest)
      (by simp only [List.length_cons] at h ⊢; omega)
    simp only [mergeAt, List.length_cons] at this ⊢
    omega

theorem mergeAt_cover : ∀ (i : Nat) (names : List Str), ∀ n ∈ names,
    ∃ m ∈ mergeAt i names, m <+: n
  | _, [], n, h => absurd h (List.not_mem_nil n)
  | _, [a], n, h => ⟨a, by simpa [mergeAt] using h ▸ List.prefix_rfl, by
      simp at h; exact h ▸ List.prefix_rfl⟩
  | 0, a :: b :: rest, n, h => by
    rcases List.mem_cons.mp h with rfl | h
    · exact ⟨lcp2 n b, by simp [mergeAt], lcp2_prefix_left n b⟩
    rcases List.mem_cons.mp h with rfl | h
    · exact ⟨lcp2 a n, by simp [mergeAt], lcp2_prefix_right a n⟩
    · exact ⟨n, by simp [mergeAt, h], List.prefix_rfl⟩
  | i + 1, a :: b :: rest, n, h => by
    rcases List.mem_cons.mp h with rfl | h
    · exact ⟨n, by simp [mergeAt], List.prefix_rfl⟩
    · obtain ⟨m, hm, hpre⟩ := mergeAt_cover i (b :: rest) n h
      exact ⟨m, by simp [mergeAt, hm], hpre⟩

theorem mergeAt_closed {p : Str} : ∀ (i : Nat) (names : List Str),
    (∀ n ∈ names, p <+: n) → ∀ m ∈ mergeAt i names, p <+: m
  | _, [], _, m, hm => by simp [mergeAt] at hm
  | _, [a], hall, m, hm => by
    simp [mergeAt] at hm
    exact hm ▸ hall a (by simp)
  | 0, a :: b :: rest, hall, m, hm => by
    rcases List.mem_cons.mp (by simpa [mergeAt] using hm) with rfl | h
    · exact prefix_lcp2 p a b (hall a (by simp)) (hall b (by simp))
    · exact hall m (by simp [h])
  | i + 1, a :: b :: rest, hall, m, hm => by
    rcases List.mem_cons.mp (by simpa [mergeAt] using hm) with rfl | h
    · exact hall m (by simp)
    · exact mergeAt_closed i (b :: rest) (fun n hn => hall n (by simp [List.mem_cons.mp hn]))
        m h

theorem groupLoop_length : ∀ (fuel : Nat) (names : List Str) (cap : Nat), 1 ≤ cap →
    names.length ≤ cap + fuel → (groupLoop fuel names cap).length ≤ cap
  | 0, names, cap, _, hs => by simpa [groupLoop] using hs
  | fuel + 1, names, cap, hcap, hs => by
    by_cases h : names.length ≤ cap
    · simpa [groupLoop, h] using h
    · have h2 : 2 ≤ names.length := by omega
      have hb := bestIdx_bound names h2
      have hlen := mergeAt_length (bestIdx names) names (by omega)
      simp only [groupLoop, if_neg h]
      exact groupLoop_length fuel _ cap hcap (by omega)

theorem groupLoop_cover : ∀ (fuel : Nat) (names : List Str) (cap : Nat), ∀ n ∈ names,
    ∃ m ∈ groupLoop fuel names cap, m <+: n
  | 0, names, cap, n, hn => ⟨n, by simpa [groupLoop] using hn, List.prefix_rfl⟩
  | fuel + 1, names, cap, n, hn => by
    by_cases h : names.length ≤ cap
    · exact ⟨n, by simpa [groupLoop, h] using hn, List.prefix_rfl⟩
    · obtain ⟨m1, hm1, hp1⟩ := mergeAt_cover (bestIdx names) names n hn
      obtain ⟨m, hm, hp⟩ := groupLoop_cover fuel (mergeAt (bestIdx names) names) cap m1 hm1
      exact ⟨m, by simpa [groupLoop, h] using hm, hp.trans hp1⟩

theorem groupLoop_closed {p : Str} : ∀ (fuel : Nat) (names : List Str) (cap : Nat),
    (∀ n ∈ names, p <+: n) → ∀ m ∈ groupLoop fuel names cap, p <+: m
  | 0, names, cap, hall, m, hm => hall m (by simpa [groupLoop] using hm)
  | fuel + 1, names, cap, hall, m, hm => by
    by_cases h : names.length ≤ cap
    · exact hall m (by simpa [groupLoop, h] using hm)
    · exact groupLoop_closed fuel _ cap (mergeAt_closed (bestIdx names) names hall) m
        (by simpa [groupLoop, h] using hm)

theorem group_length_le (siblings : List Str) (cap : Nat) (hcap : 1 ≤ cap) :
    ( group_by_prefix siblings cap).length ≤ cap :=
  groupLoop_length _ _ _ hcap (by omega)

theorem group_cover (siblings : List Str) (cap : Nat) :
    ∀ s ∈ siblings, ∃ g ∈ group_by_prefix siblings cap, g <+: s := fun s hs =>
  groupLoop_cover _ _ _ s ((mem_sortStrs siblings).mpr hs)

theorem group_closed {p : Str} (siblings : List Str) (cap : Nat)
    (hall : ∀ s ∈ siblings, p <+: s) : ∀ g ∈ group_by_prefix siblings cap, p <+: g :=
  groupLoop_closed _ _ _ (fun n hn => hall n ((mem_sortStrs siblings).mp hn))

theorem le_maxKeyLen : ∀ (tree : List Str), ∀ k ∈ tree, k.length ≤ maxKeyLen tree
  | t :: ts, k, hk => by
    rcases List.mem_cons.mp hk with rfl | h
    · exact Nat.le_max_left _ _
    · exact le_trans (le_maxKeyLen ts k h) (Nat.le_max_right _ _)

theorem mem_flatList {tree : List Str} {p k : Str} :
    k ∈ flatList tree p ↔ k ∈ tree ∧ p <+: k := by
  simp [flatList, List.mem_filter, isPre_iff]

theorem flatList_nodup {tree : List Str} {p : Str} (hnd : tree.Nodup) :
    (flatList tree p).Nodup := hnd.filter _

theorem mem_directItems {tree : List Str} {p k : Str} {d : Char} :
    k ∈ directItems tree p d ↔
      k ∈ tree ∧ p <+: k ∧ ∀ x ∈ k.drop p.length, x ≠ d := by
  simp [directItems, List.mem_filter, isPre_iff, List.all_eq_true, and_assoc]

theorem exists_split {d : Char} : ∀ (l : Str), l.any (fun c => c = d) = true →
    ∃ t, l = l.takeWhile (fun c => c ≠ d) ++ d :: t
  | [], h => by simp at h
  | x :: xs, h => by
    by_cases hx : x = d
    · subst hx
      exact ⟨xs, by simp [List.takeWhile_cons]⟩
    · have hxs : xs.any (fun c => c = d) = true := by
        simp only [List.any_cons] at h
        simpa [hx] using h
      obtain ⟨t, ht⟩ := exists_split xs hxs
      exact ⟨t, by simpa [List.takeWhile_cons, hx] using ht⟩

theorem childPref_mem {tree : List Str} {p k : Str} {d : Char} (hk : k ∈ tree)
    (hp : isPre p k = true) (hd : (k.drop p.length).any (fun c => c = d) = true) :
    childPref p d k ∈ childPrefs tree p d := by
  rw [childPrefs, List.mem_dedup, List.mem_filterMap]
  exact ⟨k, hk, by simp [hp, hd]⟩

theorem childPref_prefix {p k : Str} {d : Char}
    (hp : p <+: k) (hd : (k.drop p.length).any (fun c => c = d) = true) :
    childPref p d k <+: k := by
  obtain ⟨t, ht⟩ := exists_split (k.drop p.length) hd
  have hk : p ++ k.drop p.length = k := List.prefix_iff_eq_append.mp hp
  refine ⟨t, ?_⟩
  conv_rhs => rw [← hk, ht]
  simp [childPref, List.append_assoc]

theorem childPrefs_shape {tree : List Str} {p c : Str} {d : Char}
    (hc : c ∈ childPrefs tree p d) :
    ∃ s, c = p ++ s ++ [d] ∧ (∀ x ∈ s, x ≠ d) ∧ ∃ k ∈ tree, c <+: k := by
  rw [childPrefs, List.mem_dedup, List.mem_filterMap] at hc
  obtain ⟨k, hk, hif⟩ := hc
  by_cases hcond : (isPre p k && (k.drop p.length).any (fun c => c = d)) = true
  · rw [if_pos hcond] at hif
    rw [Bool.and_eq_true] at hcond
    obtain ⟨hp, hd⟩ := hcond
    obtain rfl := Option.some_inj.mp hif
    refine ⟨(k.drop p.length).takeWhile (fun c => c ≠ d), rfl, ?_, k, hk, ?_⟩
    · intro x hx
      simpa using List.mem_takeWhile_imp hx
    · exact childPref_prefix ((isPre_iff p k).mp hp) hd
  · rw [if_neg hcond] at hif
    exact absurd hif (by simp)

theorem children_closed {tree : List Str} {p : Str} {d : Char} :
    ∀ c ∈ childPrefs tree p d, p <+: c := by
  intro c hc
  obtain ⟨s, rfl, -, -⟩ := childPrefs_shape hc
  exact ⟨s ++ [d], (List.append_assoc p s [d]).symm⟩

theorem childPrefs_nodup {tree : List Str} {p : Str} {d : Char} :
    (childPrefs tree p d).Nodup := by
  unfold childPrefs
  exact List.nodup_dedup _

theorem seg_eq {d : Char} {s1 s2 : Str} (h : s1 ++ [d] <+: s2 ++ [d])
    (hs2 : ∀ x ∈ s2, x ≠ d) : s1 = s2 := by
  have hl : s1.length + 1 ≤ s2.length + 1 := by simpa using h.length_le
  rcases Nat.lt_or_ge s1.length s2.length with hlt | hge
  · have hpre : s1 ++ [d] <+: s2 :=
      List.prefix_of_prefix_length_le h (List.prefix_append s2 [d])
        (by simp only [List.length_append, List.length_cons, List.length_nil]; omega)
    exact absurd rfl (hs2 d (hpre.subset (by simp)))
  · have heq : s1.length = s2.length := by omega
    exact List.append_cancel_right (h.eq_of_length (by simp [heq]))

theorem children_inj {p k c1 c2 : Str} {d : Char} {s1 s2 : Str}
    (h1 : c1 = p ++ s1 ++ [d]) (h2 : c2 = p ++ s2 ++ [d])
    (hs1 : ∀ x ∈ s1, x ≠ d) (hs2 : ∀ x ∈ s2, x ≠ d)
    (hk1 : c1 <+: k) (hk2 : c2 <+: k) : c1 = c2 := by
  subst h1
  subst h2
  rcases Nat.le_total s1.length s2.length with hle | hle
  · have hpp := List.prefix_of_prefix_length_le hk1 hk2
      (by simp only [List.length_append, List.length_cons, List.length_nil]; omega)
    rw [List.append_assoc, List.append_assoc] at hpp
    rw [seg_eq ((List.prefix_append_right_inj p).mp hpp) hs2]
  · have hpp := List.prefix_of_prefix_length_le hk2 hk1
      (by simp only [List.length_append, List.length_cons, List.length_nil]; omega)
    rw [List.append_assoc, List.append_assoc] at hpp
    rw [seg_eq ((List.prefix_append_right_inj p).mp hpp) hs1]

theorem crawl_sub {tree : List Str} {d : Char} {ml mf : Option Nat} :
    ∀ (fuel : Nat) (p : Str) (level : Nat) (k : Str),
      k ∈ crawl tree d ml mf fuel p level → k ∈ tree ∧ p <+: k
  | 0, p, level, k, h => by simp [crawl] at h
  | fuel + 1, p, level, k, h => by
    rcases mf with _ | F
    · simp only [crawl] at h
      by_cases hml : atMaxLevel ml level = true
      · rw [if_pos hml] at h
        exact mem_flatList.mp h
      · rw [if_neg hml] at h
        by_cases hch : childPrefs tree p d = []
        · rw [if_pos hch] at h
          exact ⟨(mem_directItems.mp h).1, (mem_directItems.mp h).2.1⟩
        · rw [if_neg hch] at h
          rcases List.mem_append.mp h with hi | hrec
          · exact ⟨(mem_directItems.mp hi).1, (mem_directItems.mp hi).2.1⟩
          · rw [List.mem_flatten] at hrec
            obtain ⟨l, hl, hkl⟩ := hrec
            rw [List.mem_map] at hl
            obtain ⟨c, hc, rfl⟩ := hl
            obtain ⟨hkt, hck⟩ := crawl_sub fuel c (level + 1) k hkl
            exact ⟨hkt, (children_closed c hc).trans hck⟩
    · simp only [crawl] at h
      by_cases hml : atMaxLevel ml level = true
      · rw [if_pos hml] at h
        exact mem_flatList.mp h
      · rw [if_neg hml] at h
        by_cases hch : childPrefs tree p d = []
        · rw [if_pos hch] at h
          exact ⟨(mem_directItems.mp h).1, (mem_directItems.mp h).2.1⟩
        · rw [if_neg hch] at h
          by_cases hF : (childPrefs tree p d).length ≤ F
          · rw [if_pos hF] at h
            rcases List.mem_append.mp h with hi | hrec
            · exact ⟨(mem_directItems.mp hi).1, (mem_directItems.mp hi).2.1⟩
            · rw [List.mem_flatten] at hrec
              obtain ⟨l, hl, hkl⟩ := hrec
              rw [List.mem_map] at hl
              obtain ⟨c, hc, rfl⟩ := hl
              obtain ⟨hkt, hck⟩ := crawl_sub fuel c (level + 1) k hkl
              exact ⟨hkt, (children_closed c hc).trans hck⟩
          · rw [if_neg hF] at h
            rcases List.mem_append.mp h with hi | hrec
            · exact ⟨(mem_directItems.mp hi).1, (mem_directItems.mp hi).2.1⟩
            · rw [List.mem_flatten] at hrec
              obtain ⟨l, hl, hkl⟩ := hrec
              rw [List.mem_map] at hl
              obtain ⟨g, hg, rfl⟩ := hl
              obtain ⟨hkt, hgk⟩ := mem_flatList.mp hkl
              have hpg : p <+: g := group_closed _ F children_closed g hg
              exact ⟨hkt, hpg.trans hgk⟩

theorem crawl_complete {tree : List Str} {d : Char} {ml mf : Option Nat} :
    ∀ (fuel : Nat) (p : Str) (level : Nat) (k : Str),
      maxKeyLen tree < p.length + fuel → k ∈ tree → p <+: k →
      k ∈ crawl tree d ml mf fuel p level
  | 0, p, _, k, hfuel, hk, hpk => by
    have h1 := le_maxKeyLen tree k hk
    have h2 := hpk.length_le
    omega
  | fuel + 1, p, level, k, hfuel, hk, hpk => by
    by_cases hall : ∀ x ∈ k.drop p.length, x ≠ d
    · have hi : k ∈ directItems tree p d := mem_directItems.mpr ⟨hk, hpk, hall⟩
      rcases mf with _ | F
      · simp only [crawl]
        by_cases hml : atMaxLevel ml level = true
        · rw [if_pos hml]; exact mem_flatList.mpr ⟨hk, hpk⟩
        · rw [if_neg hml]
          by_cases hch : childPrefs tree p d = []
          · rw [if_pos hch]; exact hi
          · rw [if_neg hch]; exact List.mem_append.mpr (Or.inl hi)
      · simp only [crawl]
        by_cases hml : atMaxLevel ml level = true
        · rw [if_pos hml]; exact mem_flatList.mpr ⟨hk, hpk⟩
        · rw [if_neg hml]
          by_cases hch : childPrefs tree p d = []
          · rw [if_pos hch]; exact hi
          · rw [if_neg hch]
            by_cases hF : (childPrefs tree p d).length ≤ F
            · rw [if_pos hF]; exact List.mem_append.mpr (Or.inl hi)
            · rw [if_neg hF]; exact List.mem_append.mpr (Or.inl hi)
    · have hany : (k.drop p.length).any (fun c => c = d) = true := by
        rw [List.any_eq_true]
        push_neg at hall
        obtain ⟨x, hx, hxd⟩ := hall
        exact ⟨x, hx, by simp [hxd]⟩
      have hcmem : childPref p d k ∈ childPrefs tree p d :=
        childPref_mem hk ((isPre_iff p k).mpr hpk) hany
      have hck : childPref p d k <+: k := childPref_prefix hpk hany
      have hch : childPrefs tree p d ≠ [] := List.ne_nil_of_mem hcmem
      have hclen : p.length + 1 ≤ (childPref p d k).length := by
        rw [childPref]
        simp only [List.length_append, List.length_cons, List.length_nil]
        omega
      have hfuel' : maxKeyLen tree < (childPref p d k).length + fuel := by omega
      rcases mf with _ | F
      · simp only [crawl]
        by_cases hml : atMaxLevel ml level = true
        · rw [if_pos hml]; exact mem_flatList.mpr ⟨hk, hpk⟩
        · rw [if_neg hml]
          rw [if_neg hch]
          refine List.mem_append.mpr (Or.inr ?_)
          rw [List.mem_flatten]
          exact ⟨crawl tree d ml none fuel (childPref p d k) (level + 1),
            List.mem_map.mpr ⟨childPref p d k, hcmem, rfl⟩,
            crawl_complete fuel (childPref p d k) (level + 1) k hfuel' hk hck⟩
      · simp only [crawl]
        by_cases hml : atMaxLevel ml level = true
        · rw [if_pos hml]; exact mem_flatList.mpr ⟨hk, hpk⟩
        · rw [if_neg hml]
          rw [if_neg hch]
          by_cases hF : (childPrefs tree p d).length ≤ F
          · rw [if_pos hF]
            refine List.mem_append.mpr (Or.inr ?_)
            rw [List.mem_flatten]
            exact ⟨crawl tree d ml (some F) fuel (childPref p d k) (level + 1),
              List.mem_map.mpr ⟨childPref p d k, hcmem, rfl⟩,
              crawl_complete fuel (childPref p d k) (level + 1) k hfuel' hk hck⟩
          · rw [if_neg hF]
            obtain ⟨g, hg, hgc⟩ := group_cover (childPrefs tree p d) F (childPref p d k) hcmem
            refine List.mem_append.mpr (Or.inr ?_)
            rw [List.mem_flatten]
            exact ⟨flatList tree g, List.mem_map.mpr ⟨g, hg, rfl⟩,
              mem_flatList.mpr ⟨hk, hgc.trans hck⟩⟩

theorem crawl_nodup {tree : List Str} {d : Char} {ml : Option Nat} (hnd : tree.Nodup) :
    ∀ (fuel : Nat) (p : Str) (level : Nat), (crawl tree d ml none fuel p level).Nodup
  | 0, _, _ => by simp [crawl]
  | fuel + 1, p, level => by
    simp only [crawl]
    by_cases hml : atMaxLevel ml level = true
    · rw [if_pos hml]; exact flatList_nodup hnd
    · rw [if_neg hml]
      by_cases hch : childPrefs tree p d = []
      · rw [if_pos hch]; exact hnd.filter _
      · rw [if_neg hch]
        refine List.Nodup.append (hnd.filter _) ?_ ?_
        · rw [List.nodup_flatten]
          constructor
          · intro l hl
            rw [List.mem_map] at hl
            obtain ⟨c, -, rfl⟩ := hl
            exact crawl_nodup hnd fuel c (level + 1)
          · rw [List.pairwise_map]
            refine List.Pairwise.imp_of_mem ?_ childPrefs_nodup
            intro c1 c2 hc1 hc2 hne x hx1 hx2
            obtain ⟨s1, he1, hs1, -⟩ := childPrefs_shape hc1
            obtain ⟨s2, he2, hs2, -⟩ := childPrefs_shape hc2
            obtain ⟨-, hcx1⟩ := crawl_sub fuel c1 (level + 1) x hx1
            obtain ⟨-, hcx2⟩ := crawl_sub fuel c2 (level + 1) x hx2
            exact hne (children_inj he1 he2 hs1 hs2 hcx1 hcx2)
        · intro x hxi hxf
          obtain ⟨-, -, hall⟩ := mem_directItems.mp hxi
          rw [List.mem_flatten] at hxf
          obtain ⟨l, hl, hxl⟩ := hxf
          rw [List.mem_map] at hl
          obtain ⟨c, hc, rfl⟩ := hl
          obtain ⟨-, hcx⟩ := crawl_sub fuel c (level + 1) x hxl
          obtain ⟨s, rfl, -, -⟩ := childPrefs_shape hc
          obtain ⟨t, ht⟩ := hcx
          have hx : x = p ++ (s ++ (d :: t)) := by
            rw [← ht]; simp [List.append_assoc]
          exact absurd rfl (hall d (by rw [hx, List.drop_left]; simp))

theorem crawl_perm {tree : List Str} {d : Char} {ml : Option Nat} (hnd : tree.Nodup)
    (fuel : Nat) (p : Str) (level : Nat) (hfuel : maxKeyLen tree < p.length + fuel) :
    (crawl tree d ml none fuel p level).Perm (flatList tree p) := by
  rw [List.perm_ext_iff_of_nodup (crawl_nodup hnd fuel p level) (flatList_nodup hnd)]
  intro k
  rw [mem_flatList]
  exact ⟨crawl_sub fuel p level k, fun h => crawl_complete fuel p level k hfuel h.1 h.2⟩

/-- An object record as listed: key and size (`{"Key": ..., "Size": ...}`). -/
abbrev Obj := Str × Nat

/-- One event seen by the consumer of `S3BucketObjects.iter`: a page of
objects, or a `botocore` ClientError raised while producing the next
page. -/
inductive StreamEvent where
  | page (objs : List Obj)
  | clientError
deriving DecidableEq

/-- The `async for` loop of `list_objects_with_progress` in `main.py`:
`result.extend(objects_page)` for each page; a ClientError is caught and
turned into `error(...)`, which raises `click.Abort` — the loop stops
there and nothing after the error is consumed or retried.  Returns the
accumulated records and whether the crawl was aborted. -/
def consumeLoop : List Obj → List StreamEvent → List Obj × Bool
  | acc, [] => (acc, false)
  | acc, StreamEvent.page objs :: rest => consumeLoop (acc ++ objs) rest
  | acc, StreamEvent.clientError :: _ => (acc, true)

/-- `list_objects_with_progress` from `main.py`, abstracted over the
event stream produced by `S3BucketObjects.iter` (progress rendering and
timing dropped). -/
def list_objects_with_progress (events : List StreamEvent) : List Obj × Bool :=
  consumeLoop [] events

theorem consumeLoop_pages :
    ∀ (pages : List (List Obj)) (acc : List Obj) (rest : List StreamEvent),
      consumeLoop acc (pages.map StreamEvent.page ++ rest) =
        consumeLoop (acc ++ pages.flatten) rest
  | [], acc, rest => by simp
  | objs :: pages, acc, rest => by
    simp only [List.map_cons, List.cons_append, List.append_eq, consumeLoop]
    rw [consumeLoop_pages pages (acc ++ objs) rest, List.flatten_cons, List.append_assoc]

/-- Decimal digits of a natural number. -/
def natDigits (n : Nat) : Str := Nat.toDigits 10 n

/-- Render the scaled integer `m` (the value times `10 ^ d`) with `d`
decimal places, zero-padding the fractional digits, as Python's
fixed-point float formatting renders the corresponding value. -/
def renderFixed (m d : Nat) : Str :=
  if d = 0 then natDigits m
  else
    natDigits (m / 10 ^ d) ++
      '.' :: (List.replicate (d - (natDigits (m % 10 ^ d)).length) '0' ++
        natDigits (m % 10 ^ d))

/-- Round `a / b` (with `b > 0`) to the nearest integer, ties to even —
the rounding Python's float formatting applies. -/
def roundHalfEvenFrac (a b : Nat) : Nat :=
  let q := a / b
  let r := a % b
  if 2 * r < b then q else if b < 2 * r then q + 1 else if q % 2 = 0 then q else q + 1

/-- Format `n / 1024 ^ e` with `d` decimal places.  For a byte count and
at most five divisions by 1024 the Python float is the exact dyadic
rational `n / 1024 ^ e` (binary64 arithmetic is exact on in-range dyadic
rationals), so the embedding formats that rational directly. -/
def formatFixedFrac (n d e : Nat) : Str :=
  renderFixed (roundHalfEvenFrac (n * 10 ^ d) (1024 ^ e)) d

/-- The unit ladder of `human_readable_size`. -/
def sizeUnits : List Str := ["B".data, "KB".data, "MB".data, "GB".data, "TB".data]

/-- The `for _unit in [...]` loop of `human_readable_size` in `main.py`:
with the running value being `n / 1024 ^ k`, break at the first unit
where the value is below 1024, otherwise divide by 1024 — also on the
last unit, exactly as the Python loop does.  Returns the number of
divisions performed and the unit in scope after the loop. -/
def hrsLoop (n : Nat) : Nat → List Str → Nat × Str
  | k, [] => (k, [])
  | k, [u] => if n < 1024 ^ (k + 1) then (k, u) else (k + 1, u)
  | k, u :: u2 :: us => if n < 1024 ^ (k + 1) then (k, u) else hrsLoop n (k + 1) (u2 :: us)

/-- `human_readable_size` from `main.py`, for an integral byte count. -/
def human_readable_size (size : Nat) (decimal_places : Nat) : Str :=
  let loopResult := hrsLoop size 0 sizeUnits
  formatFixedFrac size decimal_places loopResult.1 ++ ' ' :: loopResult.2

theorem takeWhile_ne_append {d : Char} : ∀ (a b : Str), (∀ x ∈ a, x ≠ d) →
    (a ++ d :: b).takeWhile (fun c => c ≠ d) = a
  | [], b, _ => by simp
  | x :: a, b, h => by
    have hx : x ≠ d := h x (by simp)
    rw [List.cons_append, List.takeWhile_cons, if_pos (decide_eq_true hx),
      takeWhile_ne_append a b (fun y hy => h y (List.mem_cons_of_mem x hy))]

theorem dropWhile_ne_append {d : Char} : ∀ (a b : Str), (∀ x ∈ a, x ≠ d) →
    (a ++ d :: b).dropWhile (fun c => c ≠ d) = d :: b
  | [], b, _ => by simp
  | x :: a, b, h => by
    have hx : x ≠ d := h x (by simp)
    rw [List.cons_append, List.dropWhile_cons, if_pos (decide_eq_true hx),
      dropWhile_ne_append a b (fun y hy => h y (List.mem_cons_of_mem x hy))]

theorem takeWhile_ne_all {d : Char} : ∀ (r : Str), (∀ x ∈ r, x ≠ d) →
    r.takeWhile (fun c => c ≠ d) = r
  | [], _ => by simp
  | x :: r, h => by
    have hx : x ≠ d := h x (by simp)
    rw [List.takeWhile_cons, if_pos (decide_eq_true hx),
      takeWhile_ne_all r (fun y hy => h y (List.mem_cons_of_mem x hy))]

theorem dropWhile_ne_all {d : Char} : ∀ (r : Str), (∀ x ∈ r, x ≠ d) →
    r.dropWhile (fun c => c ≠ d) = []
  | [], _ => by simp
  | x :: r, h => by
    have hx : x ≠ d := h x (by simp)
    rw [List.dropWhile_cons, if_pos (decide_eq_true hx),
      dropWhile_ne_all r (fun y hy => h y (List.mem_cons_of_mem x hy))]

/-- C1 (amended): for every object store with distinct keys and every
`maxLevel`, `maxFolders`, delimiter and root prefix, the SET of keys a
full crawl emits equals exactly the set of stored keys that start with
the root prefix (no omission, nothing from outside the prefix); and when
`maxFolders` is unset, the emitted multiset equals that set exactly — no
key is emitted twice.  With `maxFolders` grouping active a key can be
re-emitted (see the counterexample), so the unrestricted claim fails. -/
theorem iterate_set_exact (tree : List Str) (d : Char) (ml mf : Option Nat) (p : Str)
    (hnd : tree.Nodup) :
    (∀ k, k ∈ iterate tree d ml mf p ↔ k ∈ tree ∧ p <+: k) ∧
      (iterate tree d ml none p).Perm (flatList tree p) := by
  constructor
  · intro k
    constructor
    · exact crawl_sub (maxKeyLen tree + 1) p 0 k
    · exact fun h => crawl_complete (maxKeyLen tree + 1) p 0 k (by omega) h.1 h.2
  · exact crawl_perm hnd (maxKeyLen tree + 1) p 0 (by omega)

/-- Witness for C1: the crawl of a concrete two-key store with
`maxFolders` unset is a permutation of the flat listing of the root. -/
theorem iterate_set_exact_witness :
    (iterate ["a/x".data, "b".data] '/' none none []).Perm
      (flatList ["a/x".data, "b".data] []) :=
  (iterate_set_exact ["a/x".data, "b".data] '/' none none [] (by decide)).2

/-- Counterexample to C1 as frozen: with keys `ab/x`, `ac/x`, `b/x`,
`a1`, delimiter `/` and `maxFolders = 2`, the three sibling prefixes are
folded into the groups `a` and `b/`; the flat listing of group `a`
re-emits the direct item `a1`, so `a1` appears twice in the emission. -/
theorem iterate_duplicate_emission :
    "a1".data ∈ (["ab/x".data, "ac/x".data, "b/x".data, "a1".data] : List Str) ∧
      (iterate ["ab/x".data, "ac/x".data, "b/x".data, "a1".data] '/' none (some 2)
        []).count "a1".data = 2 := by
  decide

/-- C2: in every gate state reachable during a crawl, the number of
simultaneously outstanding ListingClient calls is at most the configured
parallelism, enforced by the single shared gate's conservation law. -/
theorem gate_calls_le_parallelism (par : Nat) (s : GateState)
    (h : GateReachable par s) : s.calling ≤ par := by
  have := gateReachable_conserves h
  omega

/-- Witness for C2: with parallelism 2, after one acquire and one call
start, one call is outstanding — within the bound. -/
theorem gate_calls_le_parallelism_witness : (GateState.mk 1 0 1).calling ≤ 2 :=
  gate_calls_le_parallelism 2 _
    (GateReachable.step (GateReachable.step GateReachable.init (GateStep.acquire 1 0 0))
      (GateStep.startCall 1 0 0))

/-- C3 (amended): for every non-empty sibling list and `cap >= 1`, the
grouper returns at most `cap` prefixes, every input starts with AT LEAST
one output prefix (no omission), and the result is deterministic (a pure
function of its input).  The claim's "exactly one" half fails: an input
can start with two output prefixes (see the counterexample). -/
theorem group_cap_cover_deterministic (siblings : List Str) (cap : Nat)
    (hne : siblings ≠ []) (hcap : 1 ≤ cap) :
    ( group_by_prefix siblings cap).length ≤ cap ∧
      (∀ s ∈ siblings, ∃ g ∈ group_by_prefix siblings cap, g <+: s) ∧
      group_by_prefix siblings cap = group_by_prefix siblings cap :=
  ⟨group_length_le siblings cap hcap, group_cover siblings cap, rfl⟩

/-- Witness for C3 on the spec's own scenario: five sibling prefixes and
cap 2 yield at most 2 groups, one of which covers `logs/2023/`. -/
theorem group_cap_cover_deterministic_witness :
    ( group_by_prefix ["logs/2021/".data, "logs/2022/".data, "logs/2023/".data,
        "logs/2024/".data, "images/".data] 2).length ≤ 2 ∧
      ∃ g ∈ group_by_prefix ["logs/2021/".data, "logs/2022/".data, "logs/2023/".data,
        "logs/2024/".data, "images/".data] 2, g <+: "logs/2023/".data :=
  ⟨(group_cap_cover_deterministic _ 2 (by decide) (by decide)).1,
    (group_cap_cover_deterministic _ 2 (by decide) (by decide)).2.1 _ (by decide)⟩

/-- Counterexample to C3 as frozen: on `["a/", "b/", "c/"]` with cap 2
the merge policy produces the groups `""` and `"c/"`; the input `c/`
starts with both outputs, so it does not start with EXACTLY one output
element. -/
theorem group_overlapping_outputs :
    group_by_prefix ["a/".data, "b/".data, "c/".data] 2 = [[], "c/".data] ∧
      "c/".data ∈ (["a/".data, "b/".data, "c/".data] : List Str) ∧
      (( group_by_prefix ["a/".data, "b/".data, "c/".data] 2).filter
        (fun g => isPre g "c/".data)).length = 2 := by
  decide

/-- C4: releasing the permit on the scheduling-failure path keeps the
gate's conservation law, so in any reachable state where no task holds a
permit and no call is outstanding — after a crawl ended in success,
failure or cancellation — the available permits equal the configured
parallelism. -/
theorem gate_permits_restored (par : Nat) (s : GateState) (h : GateReachable par s)
    (hheld : s.held = 0) (hcall : s.calling = 0) : s.free = par := by
  have := gateReachable_conserves h
  omega

/-- Witness for C4, mirroring `test_semaphore_release_on_exception`:
parallelism 1, a permit is acquired, spawning fails and the permit is
released — the free count is back to 1. -/
theorem gate_permits_restored_witness : (GateState.mk 1 0 0).free = 1 :=
  gate_permits_restored 1 _
    (GateReachable.step (GateReachable.step GateReachable.init (GateStep.acquire 0 0 0))
      (GateStep.failedSpawnRelease 0 0 0)) rfl rfl

/-- C5: a ClientError from the listing stream aborts the crawl exactly
where it occurs — nothing after it is consumed, so nothing is retried —
the abort is surfaced to the caller, and every record emitted before the
abort is still present, once and in order, in the consumer's accumulated
result; without an error the same records are accumulated and no abort
is reported. -/
theorem listing_error_abort_keeps_emitted (pages : List (List Obj))
    (rest : List StreamEvent) :
    list_objects_with_progress
        (pages.map StreamEvent.page ++ StreamEvent.clientError :: rest) =
      (pages.flatten, true) ∧
      list_objects_with_progress (pages.map StreamEvent.page) = (pages.flatten, false) := by
  constructor
  · rw [list_objects_with_progress, consumeLoop_pages]
    simp [consumeLoop]
  · rw [list_objects_with_progress]
    have h := consumeLoop_pages pages [] []
    simpa [consumeLoop] using h

/-- C6: a crawl with `maxLevel = 0` is exactly one flat listing of the
root prefix; no delimiter-based decomposition happens. -/
theorem iterate_maxLevel_zero_flat (tree : List Str) (d : Char) (mf : Option Nat)
    (p : Str) : iterate tree d (some 0) mf p = flatList tree p := by
  simp [iterate, crawl, atMaxLevel]

/-- C7: `find_longest_common_prefix` returns the empty string on the
empty input and whenever no non-empty common prefix exists, returns a
singleton's element unchanged, and satisfies the four concrete cases of
the spec. -/
theorem flcp_spec_cases :
    find_longest_common_prefix [] = [] ∧
      (∀ s : Str, find_longest_common_prefix [s] = s) ∧
      (∀ l : List Str, l ≠ [] → (∀ q : Str, (∀ x ∈ l, q <+: x) → q = []) →
        find_longest_common_prefix l = []) ∧
      find_longest_common_prefix ["hello".data] = "hello".data ∧
      find_longest_common_prefix ["apple".data, "banana".data, "cherry".data] = [] ∧
      find_longest_common_prefix ["test".data, "test".data, "test".data]
        = "test".data := by
  refine ⟨rfl, fun s => rfl, ?_, by decide, by decide, by decide⟩
  intro l hne hnc
  match l with
  | x :: xs =>
    refine hnc _ (fun y hy => ?_)
    rcases List.mem_cons.mp hy with rfl | hy'
    · exact foldl_lcp2_prefix_acc xs y
    · exact foldl_lcp2_prefix_mem xs x y hy'

/-- Witness for C7's no-common-prefix clause at `["ab", "cd"]`. -/
theorem flcp_spec_cases_witness :
    find_longest_common_prefix ["ab".data, "cd".data] = [] := by
  refine flcp_spec_cases.2.2.1 ["ab".data, "cd".data] (by decide) ?_
  intro q hq
  have h1 := hq "ab".data (by decide)
  have h2 := hq "cd".data (by decide)
  match q with
  | [] => rfl
  | c :: cs => ?_
  rw [show ("ab".data : Str) = 'a' :: "b".data from rfl, List.cons_prefix_cons] at h1
  rw [show ("cd".data : Str) = 'c' :: "d".data from rfl, List.cons_prefix_cons] at h2
  exact absurd (h1.1.symm.trans h2.1) (by decide)

/-- C8: `validate_delimiter` rejects every value whose length is not
exactly one with the BadParameter message, and returns every
one-character value unchanged. -/
theorem validate_delimiter_spec (value : Str) :
    (value.length = 1 → validate_delimiter value = Except.ok value) ∧
      (value.length ≠ 1 → validate_delimiter value = Except.error delimiterErrorMsg) := by
  constructor
  · intro h
    simp [validate_delimiter, h]
  · intro h
    simp [validate_delimiter, h]

/-- Witness for C8: `/` is accepted unchanged, `ab` is rejected. -/
theorem validate_delimiter_spec_witness :
    validate_delimiter ['/'] = Except.ok ['/'] ∧
      validate_delimiter "ab".data = Except.error delimiterErrorMsg :=
  ⟨(validate_delimiter_spec ['/']).1 (by decide),
    (validate_delimiter_spec "ab".data).2 (by decide)⟩

/-- C9: for every URL of the form `s3://` ++ rest, `split_s3_url`
returns the part of `rest` before its first `/` as the bucket and the
part after it as the key; when `rest` has no `/`, the bucket is all of
`rest` and the key is empty. -/
theorem split_s3_url_spec :
    (∀ a b : Str, '/' ∉ a →
        split_s3_url (S3PROTO ++ (a ++ '/' :: b)) = (a, b)) ∧
      ∀ r : Str, '/' ∉ r → split_s3_url (S3PROTO ++ r) = (r, []) := by
  constructor
  · intro a b ha
    have hne : ∀ x ∈ a, x ≠ '/' := fun x hx he => ha (he ▸ hx)
    simp only [split_s3_url, List.drop_left]
    rw [takeWhile_ne_append a b hne, dropWhile_ne_append a b hne]
    simp
  · intro r hr
    have hne : ∀ x ∈ r, x ≠ '/' := fun x hx he => hr (he ▸ hx)
    simp only [split_s3_url, List.drop_left]
    rw [takeWhile_ne_all r hne, dropWhile_ne_all r hne]
    simp

/-- Witness for C9 at the test's URL. -/
theorem split_s3_url_spec_witness :
    split_s3_url "s3://my-bucket/path/to/object".data =
      ("my-bucket".data, "path/to/object".data) := by
  have he : S3PROTO ++ ("my-bucket".data ++ '/' :: "path/to/object".data) =
      "s3://my-bucket/path/to/object".data := by decide
  rw [← he]
  exact split_s3_url_spec.1 "my-bucket".data "path/to/object".data (by decide)

/-- C10: every size below 1024 is rendered with the requested number of
decimal places and the unit `B`, and the exact powers of 1024 up to
`1024 ^ 4` render as `1.00 KB`, `1.00 MB`, `1.00 GB`, `1.00 TB`. -/
theorem human_readable_size_spec :
    (∀ n d : Nat, n < 1024 →
        human_readable_size n d = formatFixedFrac n d 0 ++ ' ' :: "B".data) ∧
      human_readable_size 1024 2 = "1.00 KB".data ∧
      human_readable_size (1024 ^ 2) 2 = "1.00 MB".data ∧
      human_readable_size (1024 ^ 3) 2 = "1.00 GB".data ∧
      human_readable_size (1024 ^ 4) 2 = "1.00 TB".data := by
  refine ⟨?_, by decide, by decide, by decide, by decide⟩
  intro n d h
  simp [human_readable_size, sizeUnits, hrsLoop, h]

/-- Witness for C10's sub-1024 clause: 512 bytes with two decimals. -/
theorem human_readable_size_spec_witness :
    human_readable_size 512 2 = formatFixedFrac 512 2 0 ++ ' ' :: "B".data :=
  human_readable_size_spec.1 512 2 (by decide)
